import Mathlib

/-!
Verification of the URL-normalization engine in
src/warc2zim/statics/wombat_setup.js (openzim/warc2zim).

The JavaScript source consists of a fuzzy-rule reduction function over
entry paths (eight ordered regex rules, first structurally-changing
match wins) and a URL rewrite closure built over a five-field archival
context (current_url, orig_host, orig_scheme, orig_url, prefix).

The shallow embedding below works over List Char (one JS string
character per list element).  Each regex rule is translated into an
executable function realizing exactly the JS RegExp semantics of
String.prototype.replace with a non-global pattern: leftmost match,
greedy quantifiers maximized in pattern order (with lazy quantifiers
minimized), and the whole match replaced by the template.
-/

/-! ### Character classes used by the source regexes and by the URL code -/

/-- JS regex word character, as in the \w class of the scheme-stripping
regex in urlRewriteFunction. -/
def isWordChar (c : Char) : Bool := c.isAlpha || c.isDigit || c == '_'

/-- Characters allowed in a URL scheme after the leading letter. -/
def isSchemeChar (c : Char) : Bool :=
  c.isAlpha || c.isDigit || c == '+' || c == '-' || c == '.'

/-- Characters that terminate the host component when parsing a URL. -/
def isHostEnd (c : Char) : Bool := c == '/' || c == '?' || c == '#'

/-- The [\d/] class of fuzzy rule 7. -/
def isDigitSlash (c : Char) : Bool := c.isDigit || c == '/'

/-- Characters that encodeURIComponent leaves unescaped. -/
def isUnreservedChar (c : Char) : Bool :=
  c.isAlpha || c.isDigit || c == '-' || c == '_' || c == '.' || c == '!' ||
  c == '~' || c == '*' || c == Char.ofNat 39 || c == '(' || c == ')'

/-! ### encodeURIComponent -/

/-- Uppercase hexadecimal digit for a value below 16. -/
def hexDigitChar (n : Nat) : Char := (("0123456789ABCDEF".data).drop n).headD '0'

/-- UTF-8 bytes of a code point, as percent-encoding operates on bytes. -/
def utf8Bytes (n : Nat) : List Nat :=
  if n < 128 then [n]
  else if n < 2048 then [192 + n / 64, 128 + n % 64]
  else if n < 65536 then [224 + n / 4096, 128 + n / 64 % 64, 128 + n % 64]
  else [240 + n / 262144, 128 + n / 4096 % 64, 128 + n / 64 % 64, 128 + n % 64]

/-- Percent-escape a single character byte by byte. -/
def percentEncodeChar (c : Char) : List Char :=
  (utf8Bytes c.toNat).foldr
    (fun b acc => '%' :: hexDigitChar (b / 16) :: hexDigitChar (b % 16) :: acc) []

/-- The JS encodeURIComponent function on character lists. -/
def encodeURIComponentL (s : List Char) : List Char :=
  s.foldr (fun c acc => (if isUnreservedChar c then [c] else percentEncodeChar c) ++ acc) []

/-- The JS encodeURIComponent function on strings. -/
def encodeURIComponent (s : String) : String := ⟨encodeURIComponentL s.data⟩

/-! ### Pattern primitives for the fuzzy rules

A literal-with-wildcards pattern is a list of optional characters;
none stands for the regex . metacharacter (any single character). -/

/-- Literal pattern from a string (every character matched exactly). -/
def lit (s : String) : List (Option Char) := s.data.map some

/-- Does the pattern match a prefix of the list? -/
def pmatchAt : List (Option Char) → List Char → Bool
  | [], _ => true
  | _ :: _, [] => false
  | some c :: ps, d :: ds => c == d && pmatchAt ps ds
  | none :: ps, _ :: ds => pmatchAt ps ds

/-- All positions (ascending) at which the pattern matches. -/
def matchPositions (pat : List (Option Char)) (s : List Char) : List Nat :=
  (List.range (s.length + 1)).filter (fun i => pmatchAt pat (s.drop i))

/-! ### Fuzzy rule 1

Regex: .*googlevideo.com/(videoplayback\?).*((?<=[?&])id=[^&]+).*
Replacement: youtube.fuzzy.replayweb.page/$1$2

The unescaped dot in googlevideo.com is a wildcard.  Group 1 is the
constant videoplayback?.  Greedy backtracking selects the rightmost
id= occurrence preceded by ? or & that lies at or after the end of
some googlevideo needle occurrence; the match then covers the whole
string, so the result is the bare replacement. -/

/-- The googlevideo.com/videoplayback? needle (length 30, one wildcard). -/
def gvNeedle : List (Option Char) := lit "googlevideo" ++ [none] ++ lit "com/videoplayback?"

/-- Positions p where id= occurs preceded by ? or & and followed by at
least one character other than &, as required by (?<=[?&])id=[^&]+. -/
def idParamPositions (s : List Char) : List Nat :=
  (List.range (s.length + 1)).filter (fun p =>
    !(p == 0) &&
    (match (s.drop (p - 1)).head? with
     | some c => c == '?' || c == '&'
     | none => false) &&
    pmatchAt (lit "id=") (s.drop p) &&
    !((s.drop (p + 3)).takeWhile (fun c => !(c == '&'))).isEmpty)

/-- Application of fuzzy rule 1 (identity when the regex does not match). -/
def applyRule1 (s : List Char) : List Char :=
  let goods := (idParamPositions s).filter
    (fun p => (matchPositions gvNeedle s).any (fun q => decide (q + 30 ≤ p)))
  match goods.getLast? with
  | some p =>
    "youtube.fuzzy.replayweb.page/videoplayback?id=".data ++
      (s.drop (p + 3)).takeWhile (fun c => !(c == '&'))
  | none => s

/-! ### Fuzzy rule 2

Regex: (?:www\.)?youtube(?:-nocookie)?\.com/(get_video_info\?).*(video_id=[^&]+).*
Replacement: youtube.fuzzy.replayweb.page/$1$2

Here the dots are escaped, so the host part is one of four literal
variants.  The match is leftmost; the prefix of the string before the
match start is kept; greedy backtracking selects the rightmost
video_id= occurrence after the host and get_video_info? literals. -/

/-- The four literal host variants of (?:www\.)?youtube(?:-nocookie)?\.com/ . -/
def ytHosts : List (List Char) :=
  ["www.youtube-nocookie.com/", "www.youtube.com/", "youtube-nocookie.com/",
   "youtube.com/"].map String.data

/-- End position (exclusive) of the host variant matching at position i,
if any; at most one variant can match at a given position. -/
def ytHostEndAt (s : List Char) (i : Nat) : Option Nat :=
  (ytHosts.filterMap (fun h =>
    if h.isPrefixOf (s.drop i) then some (i + h.length) else none)).head?

/-- Positions of video_id= followed by at least one non-& character. -/
def videoIdEqPositions (s : List Char) : List Nat :=
  (List.range (s.length + 1)).filter (fun p =>
    pmatchAt (lit "video_id=") (s.drop p) &&
    !((s.drop (p + 9)).takeWhile (fun c => !(c == '&'))).isEmpty)

/-- Match start positions of rule 2 (host variant, then get_video_info?,
then some video_id= occurrence at or after its end). -/
def rule2Starts (s : List Char) : List Nat :=
  (List.range (s.length + 1)).filter (fun i =>
    match ytHostEndAt s i with
    | some m =>
      pmatchAt (lit "get_video_info?") (s.drop m) &&
      (videoIdEqPositions s).any (fun p => decide (m + 15 ≤ p))
    | none => false)

/-- Application of fuzzy rule 2. -/
def applyRule2 (s : List Char) : List Char :=
  match (rule2Starts s).head? with
  | none => s
  | some i =>
    match ytHostEndAt s i with
    | none => s
    | some m =>
      match ((videoIdEqPositions s).filter (fun p => decide (m + 15 ≤ p))).getLast? with
      | none => s
      | some p =>
        s.take i ++ "youtube.fuzzy.replayweb.page/get_video_info?video_id=".data ++
          (s.drop (p + 9)).takeWhile (fun c => !(c == '&'))

/-! ### Fuzzy rule 3

Regex: (\.[^?]+\?)[\d]+$    Replacement: $1

The match must end at the end of the string with a nonempty digit run,
immediately preceded by a ? that is preceded by a dot with at least one
non-? character in between.  The replacement keeps group 1, i.e. the
string is truncated right after that final ?.  The result does not
depend on which dot is chosen, so no leftmost bookkeeping is needed. -/

/-- Application of fuzzy rule 3. -/
def applyRule3 (s : List Char) : List Char :=
  if !(s.reverse.takeWhile Char.isDigit).isEmpty &&
      (s.reverse.dropWhile Char.isDigit).head? == some '?' &&
      ((((s.reverse.dropWhile Char.isDigit).drop 1).takeWhile
          (fun c => !(c == '?'))).drop 1).contains '.' then
    (s.reverse.dropWhile Char.isDigit).reverse
  else s

/-! ### Fuzzy rule 4

Regex: (?:www\.)?youtube(?:-nocookie)?\.com\/(youtubei/[^?]+).*(videoId[^&]+).*
Replacement: youtube.fuzzy.replayweb.page/$1?$2 -/

/-- Start of the youtubei/ segment after a host variant at i, requiring at
least one further non-? character, as demanded by youtubei/[^?]+. -/
def youtubeiAt (s : List Char) (i : Nat) : Option Nat :=
  match ytHostEndAt s i with
  | some m =>
    if pmatchAt (lit "youtubei/") (s.drop m) &&
        !((s.drop (m + 9)).takeWhile (fun c => !(c == '?'))).isEmpty then
      some m
    else none
  | none => none

/-- Positions of videoId followed by at least one non-& character. -/
def videoIdPositions (s : List Char) : List Nat :=
  (List.range (s.length + 1)).filter (fun p =>
    pmatchAt (lit "videoId") (s.drop p) &&
    !((s.drop (p + 7)).takeWhile (fun c => !(c == '&'))).isEmpty)

/-- Application of fuzzy rule 4.  Greediness: [^?]+ is maximized first
(bounded by the rightmost videoId occurrence), then the middle .* pushes
group 2 to that rightmost occurrence. -/
def applyRule4 (s : List Char) : List Char :=
  let starts := (List.range (s.length + 1)).filter (fun i =>
    match youtubeiAt s i with
    | some m => (videoIdPositions s).any (fun p => decide (m + 10 ≤ p))
    | none => false)
  match starts.head? with
  | none => s
  | some i =>
    match youtubeiAt s i with
    | none => s
    | some m =>
      match ((videoIdPositions s).filter (fun p => decide (m + 10 ≤ p))).getLast? with
      | none => s
      | some p =>
        let bigR := m + ((s.drop m).takeWhile (fun c => !(c == '?'))).length
        let e := min bigR p
        s.take i ++ "youtube.fuzzy.replayweb.page/".data ++ (s.drop m).take (e - m) ++
          '?' :: "videoId".data ++ (s.drop (p + 7)).takeWhile (fun c => !(c == '&'))

/-! ### Fuzzy rule 5

Regex: (?:www\.)?youtube(?:-nocookie)?\.com/embed/([^?]+).*
Replacement: youtube.fuzzy.replayweb.page/embed/$1 -/

/-- Position just after host-variant/embed/ when it matches at i. -/
def embedAt (s : List Char) (i : Nat) : Option Nat :=
  match ytHostEndAt s i with
  | some m => if pmatchAt (lit "embed/") (s.drop m) then some (m + 6) else none
  | none => none

/-- Application of fuzzy rule 5. -/
def applyRule5 (s : List Char) : List Char :=
  let starts := (List.range (s.length + 1)).filter (fun i =>
    match embedAt s i with
    | some h => !((s.drop h).takeWhile (fun c => !(c == '?'))).isEmpty
    | none => false)
  match starts.head? with
  | none => s
  | some i =>
    match embedAt s i with
    | none => s
    | some h =>
      s.take i ++ "youtube.fuzzy.replayweb.page/embed/".data ++
        (s.drop h).takeWhile (fun c => !(c == '?'))

/-! ### Fuzzy rule 6

Regex: youtube.fuzzy.replayweb.page/embed/([^?&]+).*
Replacement: youtube.fuzzy.replayweb.page/embed/$1

The three dots are unescaped, hence wildcards (length 35 needle). -/

/-- The youtube.fuzzy.replayweb.page/embed/ needle with wildcard dots. -/
def fuzzyEmbedNeedle : List (Option Char) :=
  lit "youtube" ++ [none] ++ lit "fuzzy" ++ [none] ++ lit "replayweb" ++ [none] ++
    lit "page/embed/"

/-- Application of fuzzy rule 6. -/
def applyRule6 (s : List Char) : List Char :=
  let starts := (List.range (s.length + 1)).filter (fun i =>
    pmatchAt fuzzyEmbedNeedle (s.drop i) &&
    !((s.drop (i + 35)).takeWhile (fun c => !(c == '?' || c == '&'))).isEmpty)
  match starts.head? with
  | none => s
  | some i =>
    s.take i ++ "youtube.fuzzy.replayweb.page/embed/".data ++
      (s.drop (i + 35)).takeWhile (fun c => !(c == '?' || c == '&'))

/-! ### Fuzzy rule 7

Regex: .*(?:gcs-vimeo|vod|vod-progressive)\.akamaized\.net.*?/([\d/]+.mp4)$
Replacement: vimeo-cdn.fuzzy.replayweb.page/$1

Group 1 is a nonempty digit-or-slash run, one arbitrary character, and
the final literal mp4, anchored at the end and preceded by a literal
slash; the lazy .*? places that slash as early as possible after the
rightmost feasible akamaized needle. -/

/-- The three literal alternatives with the .akamaized.net suffix. -/
def akamaiAlts : List (List Char) :=
  ["gcs-vimeo.akamaized.net", "vod.akamaized.net", "vod-progressive.akamaized.net"].map
    String.data

/-- Does position d carry the slash opening a valid [\d/]+.mp4$ tail? -/
def rule7SlashOK (s : List Char) (d : Nat) : Bool :=
  let t := s.length - 3
  decide (3 ≤ s.length) && pmatchAt (lit "mp4") (s.drop t) &&
  ((s.drop d).head? == some '/') && decide (d + 1 ≤ t - 2) &&
  ((s.drop (d + 1)).take (t - 2 - d)).all isDigitSlash

/-- Needle occurrences of rule 7 as pairs of start and end position. -/
def akamaiPairs (s : List Char) : List (Nat × Nat) :=
  (List.range (s.length + 1)).filterMap (fun q =>
    match (akamaiAlts.filterMap (fun alt =>
      if alt.isPrefixOf (s.drop q) then some (q + alt.length) else none)).head? with
    | some e => some (q, e)
    | none => none)

/-- Application of fuzzy rule 7. -/
def applyRule7 (s : List Char) : List Char :=
  let good := (akamaiPairs s).filter (fun qe =>
    (List.range (s.length + 1)).any (fun d => decide (qe.2 ≤ d) && rule7SlashOK s d))
  match good.getLast? with
  | none => s
  | some qe =>
    match ((List.range (s.length + 1)).filter
        (fun d => decide (qe.2 ≤ d) && rule7SlashOK s d)).head? with
    | none => s
    | some d => "vimeo-cdn.fuzzy.replayweb.page/".data ++ s.drop (d + 1)

/-! ### Fuzzy rule 8

Regex: .*player.vimeo.com/(video/[\d]+)\?.*
Replacement: vimeo.fuzzy.replayweb.page/$1

The dots of player.vimeo.com are wildcards (length 17 needle). -/

/-- The player.vimeo.com/ needle with wildcard dots. -/
def playerNeedle : List (Option Char) :=
  lit "player" ++ [none] ++ lit "vimeo" ++ [none] ++ lit "com/"

/-- Does rule 8 match starting at the needle position i? -/
def rule8At (s : List Char) (i : Nat) : Bool :=
  pmatchAt playerNeedle (s.drop i) && pmatchAt (lit "video/") (s.drop (i + 17)) &&
  (let ds := (s.drop (i + 23)).takeWhile Char.isDigit
   !ds.isEmpty && ((s.drop (i + 23 + ds.length)).head? == some '?'))

/-- Application of fuzzy rule 8. -/
def applyRule8 (s : List Char) : List Char :=
  match ((List.range (s.length + 1)).filter (fun i => rule8At s i)).getLast? with
  | none => s
  | some i =>
    "vimeo.fuzzy.replayweb.page/video/".data ++ (s.drop (i + 23)).takeWhile Char.isDigit

/-! ### The reduce function

JS source: iterate the rules in declared order, returning the first
application whose result differs from the input. -/

/-- The fuzzy-rule reduction on character lists: first structurally
changing rule wins; identity when no rule changes the path. -/
def reduceL (s : List Char) : List Char :=
  if applyRule1 s ≠ s then applyRule1 s else
  if applyRule2 s ≠ s then applyRule2 s else
  if applyRule3 s ≠ s then applyRule3 s else
  if applyRule4 s ≠ s then applyRule4 s else
  if applyRule5 s ≠ s then applyRule5 s else
  if applyRule6 s ≠ s then applyRule6 s else
  if applyRule7 s ≠ s then applyRule7 s else
  if applyRule8 s ≠ s then applyRule8 s else
  s

/-- The reduce function of the source, on strings. -/
def reduce (p : String) : String := ⟨reduceL p.data⟩

/-! ### URL model

The source uses the WHATWG URL constructor for resolution and
reassembly.  The model below covers hierarchical scheme://host URLs
(the only kind the rewriter can produce): parsing splits scheme, host,
pathname, query and fragment; serialization concatenates them back.
Strings that the constructor would reject in this fragment (no scheme,
empty host) parse to none, matching a thrown TypeError. -/

/-- Components of a parsed URL, mirroring the fields of the JS URL
object used by the source (pathname, search, hash). -/
structure URLRec where
  scheme : List Char
  host : List Char
  pathname : List Char
  query : Option (List Char)
  fragment : Option (List Char)
deriving DecidableEq

/-- Split at the first occurrence of c: the part before it, and the part
after it if present. -/
def splitOn1 (c : Char) (s : List Char) : List Char × Option (List Char) :=
  (s.takeWhile (fun x => !(x == c)),
   match s.dropWhile (fun x => !(x == c)) with
   | [] => none
   | _ :: rest => some rest)

/-- Is a candidate scheme admissible (nonempty, leading letter)? -/
def schemeOK (sch : List Char) : Bool :=
  match sch with
  | [] => false
  | c :: _ => c.isAlpha

/-- Split off a leading scheme:// from a URL string: the scheme must be a
nonempty run of scheme characters starting with a letter, followed by
the literal ://. -/
def schemeSplit (s : List Char) : Option (List Char × List Char) :=
  if schemeOK (s.takeWhile isSchemeChar) &&
      ([':', '/', '/'] : List Char).isPrefixOf (s.dropWhile isSchemeChar) then
    some (s.takeWhile isSchemeChar, (s.dropWhile isSchemeChar).drop 3)
  else none

/-- Parse an absolute hierarchical URL; none models a thrown TypeError.
An absent path serializes as /, following URL normalization. -/
def parseURL (s : List Char) : Option URLRec :=
  match schemeSplit s with
  | none => none
  | some (sch, r) =>
    if (r.takeWhile (fun c => !isHostEnd c)).isEmpty then none
    else
      some ⟨sch, r.takeWhile (fun c => !isHostEnd c),
        if (splitOn1 '?' (splitOn1 '#' (r.dropWhile (fun c => !isHostEnd c))).1).1.isEmpty
          then ['/']
          else (splitOn1 '?' (splitOn1 '#' (r.dropWhile (fun c => !isHostEnd c))).1).1,
        (splitOn1 '?' (splitOn1 '#' (r.dropWhile (fun c => !isHostEnd c))).1).2,
        (splitOn1 '#' (r.dropWhile (fun c => !isHostEnd c))).2⟩

/-- Serialization (the toString/href of the URL object). -/
def serializeURL (u : URLRec) : List Char :=
  u.scheme ++ ':' :: '/' :: '/' :: u.host ++ u.pathname ++
  (match u.query with | none => [] | some q => '?' :: q) ++
  (match u.fragment with | none => [] | some f => '#' :: f)

/-- The search getter of the JS URL object: empty for an absent or empty
query, otherwise the query preceded by ?. -/
def searchStr (u : URLRec) : List Char :=
  match u.query with
  | none => []
  | some q => if q.isEmpty then [] else '?' :: q

/-- Does the string carry a leading scheme:// (so that the URL
constructor ignores its base argument)? -/
def hasScheme (s : List Char) : Bool := (schemeSplit s).isSome

/-- The base directory of a pathname: everything up to and including the
last slash, used for relative resolution. -/
def dirOf (p : List Char) : List Char := (p.reverse.dropWhile (fun c => !(c == '/'))).reverse

/-- Resolution of a URL reference against a base, as by new URL(u, base)
restricted to the reference shapes the rewriter can produce: absolute,
protocol-relative, host-relative, query-only, fragment-only and
path-relative references (without dot-segment normalization). -/
def resolveURL (u : List Char) (base : List Char) : Option URLRec :=
  if hasScheme u then parseURL u
  else
    match parseURL base with
    | none => none
    | some b =>
      match u with
      | '/' :: '/' :: _ => parseURL (b.scheme ++ ':' :: u)
      | '/' :: _ => parseURL (b.scheme ++ ':' :: '/' :: '/' :: b.host ++ u)
      | '?' :: _ => parseURL (b.scheme ++ ':' :: '/' :: '/' :: b.host ++ b.pathname ++ u)
      | '#' :: _ =>
        parseURL (b.scheme ++ ':' :: '/' :: '/' :: b.host ++ b.pathname ++
          (match b.query with | none => [] | some q => '?' :: q) ++ u)
      | _ => parseURL (b.scheme ++ ':' :: '/' :: '/' :: b.host ++ dirOf b.pathname ++ u)

/-- new URL(u, base).toString() . -/
def resolveToStringL (u : List Char) (base : List Char) : Option (List Char) :=
  (resolveURL u base).map serializeURL

/-! ### The rewrite closure -/

/-- The five context values closed over by urlRewriteFunction: the
current document URL, the original host, scheme and URL, and the
serving location (the prefix parameter of the source) prepended to all
rewritten URLs. -/
structure Ctx where
  current_url : String
  orig_host : String
  orig_scheme : String
  orig_url : String
  servingRoot : String
deriving DecidableEq

/-- The fixed list of passthrough sentinels checked by the source. -/
def specialSentinels : List String :=
  ["#", "about:", "data:", "blob:", "mailto:", "javascript:", "\x7b", "*"]

/-- Step 1 of the rewriter: inputs starting with the original host or
with one of the sentinels are returned unchanged. -/
def passthroughCheck (ctx : Ctx) (u : List Char) : Bool :=
  ctx.orig_host.data.isPrefixOf u ||
  specialSentinels.any (fun p => p.data.isPrefixOf u)

/-- Step 2 of the rewriter: absolute resolution by input shape, following
the startsWith checks of the source. -/
def resolveAbsolute (ctx : Ctx) (u : List Char) : Option (List Char) :=
  if ("//".data).isPrefixOf u then some (ctx.orig_scheme.data ++ u)
  else if ("/".data).isPrefixOf u then resolveToStringL u ctx.orig_url.data
  else resolveToStringL u ctx.current_url.data

/-- The ^\w+:?// scheme-stripping replace of step 3. -/
def stripSchemeL (s : List Char) : List Char :=
  match s.takeWhile isWordChar, s.dropWhile isWordChar with
  | _ :: _, ':' :: '/' :: '/' :: r => r
  | _ :: _, '/' :: '/' :: r => r
  | _, _ => s

/-- Step 3 of the rewriter: recover the entry path from the absolute URL
by stripping the serving location, or else any leading scheme. -/
def entryPathOf (ctx : Ctx) (absolute_url : List Char) : List Char :=
  if ctx.servingRoot.data.isPrefixOf absolute_url then
    absolute_url.drop ctx.servingRoot.data.length
  else stripSchemeL absolute_url

/-- Step 5 query folding applied to a parsed URL: a nonempty search is
percent-encoded (leading ? included), appended to the pathname, and the
query is cleared. -/
def foldQuery (u : URLRec) : URLRec :=
  if !(searchStr u).isEmpty then
    { u with pathname := u.pathname ++ encodeURIComponentL (searchStr u), query := none }
  else u

/-- Step 5 of the rewriter: parse the reassembled string, fold any query
into the path, and serialize; a parse failure propagates. -/
def reassembleL (s : List Char) : Except Unit (List Char) :=
  match parseURL s with
  | none => Except.error ()
  | some u => Except.ok (serializeURL (foldQuery u))

/-- Steps 2 to 5 on a non-passthrough input. -/
def rewriteCore (ctx : Ctx) (s : List Char) : Except Unit (List Char) :=
  match resolveAbsolute ctx s with
  | none => Except.error ()
  | some a => reassembleL (ctx.servingRoot.data ++ reduceL (entryPathOf ctx a))

/-- The urlRewriteFunction closure of the source.  The url argument may
be null (none); useRel, mod and doc are accepted and ignored, exactly as
in the source.  Except models an exception escaping the function. -/
def urlRewriteFunction (ctx : Ctx) (url : Option String) (useRel : Bool) (mod : String)
    (doc : Unit) : Except Unit (Option String) :=
  match url with
  | none => Except.ok none
  | some u =>
    if u.data.isEmpty then Except.ok (some u)
    else if passthroughCheck ctx u.data then Except.ok (some u)
    else
      match rewriteCore ctx u.data with
      | Except.error e => Except.error e
      | Except.ok r => Except.ok (some ⟨r⟩)

/-! ### Concrete contexts used by the claims -/

/-- The archival context of the spec scenario for rule 1. -/
def ctxScenario : Ctx :=
  ⟨"https://example.com/v", "https://example.com", "https:", "https://example.com/v",
   "/archive/20230101/"⟩

/-- A context whose serving location is a fully qualified URL. -/
def ctxKiwix : Ctx :=
  ⟨"http://library.kiwix.org/A/www.example.com/", "https://www.example.com", "https:",
   "https://www.example.com/", "http://library.kiwix.org/A/"⟩

/-- Equality decision for the rewrite result type. -/
instance : DecidableEq (Except Unit (Option String)) := fun a b =>
  match a, b with
  | Except.error e, Except.error f =>
    if h : e = f then isTrue (by rw [h]) else isFalse (fun hh => h (by injection hh))
  | Except.ok x, Except.ok y =>
    if h : x = y then isTrue (by rw [h]) else isFalse (fun hh => h (by injection hh))
  | Except.error _, Except.ok _ => isFalse (fun hh => Except.noConfusion hh)
  | Except.ok _, Except.error _ => isFalse (fun hh => Except.noConfusion hh)

/-- Equality decision for reassembly results. -/
instance : DecidableEq (Except Unit (List Char)) := fun a b =>
  match a, b with
  | Except.error e, Except.error f =>
    if h : e = f then isTrue (by rw [h]) else isFalse (fun hh => h (by injection hh))
  | Except.ok x, Except.ok y =>
    if h : x = y then isTrue (by rw [h]) else isFalse (fun hh => h (by injection hh))
  | Except.error _, Except.ok _ => isFalse (fun hh => Except.noConfusion hh)
  | Except.ok _, Except.error _ => isFalse (fun hh => Except.noConfusion hh)

/-! ### Helper lemmas on lists -/

/-- takeWhile walks through a block whose elements all satisfy p. -/
theorem takeWhile_append_all {α : Type} {p : α → Bool} {a : List α} (b : List α)
    (h : ∀ x ∈ a, p x = true) : (a ++ b).takeWhile p = a ++ b.takeWhile p := by
  have ha : a.takeWhile p = a := List.takeWhile_eq_self_iff.mpr h
  rw [List.takeWhile_append, ha, if_pos rfl]

/-- dropWhile walks through a block whose elements all satisfy p. -/
theorem dropWhile_append_all {α : Type} {p : α → Bool} {a : List α} (b : List α)
    (h : ∀ x ∈ a, p x = true) : (a ++ b).dropWhile p = b.dropWhile p := by
  have ha : a.dropWhile p = [] := List.dropWhile_eq_nil_iff.mpr h
  rw [List.dropWhile_append, ha]
  simp

/-- A list is a Boolean prefix of itself extended by anything. -/
theorem isPrefixOf_append_self (a b : List Char) : a.isPrefixOf (a ++ b) = true :=
  List.isPrefixOf_iff_prefix.mpr (List.prefix_append a b)

/-- A nonempty takeWhile exposes the head of the underlying list. -/
theorem takeWhile_eq_cons_head {α : Type} {p : α → Bool} {l t : List α} {c : α}
    (h : l.takeWhile p = c :: t) : l.head? = some c ∧ p c = true := by
  cases l with
  | nil => simp at h
  | cons x xs =>
    by_cases hx : p x
    · rw [List.takeWhile_cons_of_pos hx] at h
      obtain ⟨rfl, -⟩ := List.cons.inj h
      exact ⟨rfl, hx⟩
    · rw [List.takeWhile_cons_of_neg hx] at h
      exact absurd h (by simp)

/-- The head of a dropWhile residue falsifies the predicate. -/
theorem dropWhile_eq_cons_head {α : Type} {p : α → Bool} {l t : List α} {c : α}
    (h : l.dropWhile p = c :: t) : p c = false := by
  have := List.head?_dropWhile_not p l
  rw [h] at this
  simpa using this

/-! ### Claim theorems -/

/-- C10: the rewrite result depends only on the url argument and the five
context values; the extra parameters useRel, mod and doc never influence
the returned value, and equal inputs give equal outputs. -/
theorem claim10_context_determines_result (ctx : Ctx) (url : Option String)
    (r1 r2 : Bool) (m1 m2 : String) (d1 d2 : Unit) :
    urlRewriteFunction ctx url r1 m1 d1 = urlRewriteFunction ctx url r2 m2 d2 ∧
    urlRewriteFunction ctx url r1 m1 d1 = urlRewriteFunction ctx url r1 m1 d1 :=
  ⟨rfl, rfl⟩

/-- C2: reduce is not idempotent.  On the path
www.youtube.com/embed/abc&def, rule 5 keeps the ampersand part of the
embed id, and a second reduction then changes the string again through
rule 6, whose character class also excludes the ampersand. -/
theorem claim2_idempotence_fails_on_embed :
    reduce "www.youtube.com/embed/abc&def" =
      "youtube.fuzzy.replayweb.page/embed/abc&def" ∧
    reduce (reduce "www.youtube.com/embed/abc&def") =
      "youtube.fuzzy.replayweb.page/embed/abc" ∧
    reduce (reduce "www.youtube.com/embed/abc&def") ≠
      reduce "www.youtube.com/embed/abc&def" := by
  refine ⟨by decide, by decide, by decide⟩

/-- C1 counterexample: in the spec scenario context, the rewrite of
https://s.ytimg.com/videoplayback?id=abc123&itag=22 does not return the
canonical archive path claimed by the spec. -/
theorem claim1_counterexample :
    urlRewriteFunction ctxScenario
      (some "https://s.ytimg.com/videoplayback?id=abc123&itag=22") true "" () ≠
    Except.ok
      (some "/archive/20230101/youtube.fuzzy.replayweb.page/videoplayback?id=abc123") := by
  decide

/-- C1 amended: with that context the call raises instead.  The entry
path s.ytimg.com/videoplayback?id=abc123&itag=22 matches no fuzzy rule
(rule 1 requires a googlevideo.com host), and reassembly fails because
the serving location /archive/20230101/ is not an absolute URL, so the
URL constructor rejects the concatenation. -/
theorem claim1_amended_raises :
    urlRewriteFunction ctxScenario
      (some "https://s.ytimg.com/videoplayback?id=abc123&itag=22") true "" () =
    Except.error () ∧
    reduce "s.ytimg.com/videoplayback?id=abc123&itag=22" =
      "s.ytimg.com/videoplayback?id=abc123&itag=22" := by
  refine ⟨by decide, by decide⟩

/-- C3: rule 1 has priority.  Whenever rule 1 changes a path (in
particular whenever rules 1 and 3 would both rewrite it), reduce stops
at rule 1 and returns its rewriting. -/
theorem claim3_rule1_wins (p : String)
    (h1 : applyRule1 p.data ≠ p.data) (h3 : applyRule3 p.data ≠ p.data) :
    reduce p = ⟨applyRule1 p.data⟩ := by
  unfold reduce reduceL
  rw [if_pos h1]

/-- C3 witness: a concrete path rewritten by both rule 1 and rule 3
resolves through rule 1. -/
theorem claim3_rule1_wins_witness :
    reduce "googlevideo.com/videoplayback?id=abc&.a?123" =
      "youtube.fuzzy.replayweb.page/videoplayback?id=abc" :=
  (claim3_rule1_wins "googlevideo.com/videoplayback?id=abc&.a?123"
    (by decide) (by decide)).trans (by decide)

/-- C4 counterexample: reduce keeps the question mark when stripping a
numeric cache-buster suffix, so it does not return everything strictly
before the question mark. -/
theorem claim4_counterexample :
    reduce "a.css?123" ≠ "a.css" ∧ reduce "a.css?123" = "a.css?" := by
  refine ⟨by decide, by decide⟩

/-- C4 amended: on any path ending in a dot-extension, a question mark
and a nonempty purely numeric query, when neither rule 1 nor rule 2
changes the path, reduce strips exactly the digits and returns
everything before the question mark together with the question mark
itself. -/
theorem claim4_amended (a b d : List Char) (hb : b ≠ []) (hbq : ∀ c ∈ b, c ≠ '?')
    (hd : d ≠ []) (hdd : ∀ c ∈ d, c.isDigit = true)
    (h1 : applyRule1 (a ++ '.' :: b ++ '?' :: d) = a ++ '.' :: b ++ '?' :: d)
    (h2 : applyRule2 (a ++ '.' :: b ++ '?' :: d) = a ++ '.' :: b ++ '?' :: d) :
    reduceL (a ++ '.' :: b ++ '?' :: d) = a ++ '.' :: b ++ ['?'] := by
  have hrev : (a ++ '.' :: b ++ '?' :: d).reverse =
      d.reverse ++ '?' :: (b.reverse ++ '.' :: a.reverse) := by
    simp
  have hdsr : ∀ c ∈ d.reverse, Char.isDigit c = true :=
    fun c hc => hdd c (List.mem_reverse.mp hc)
  have hds : (a ++ '.' :: b ++ '?' :: d).reverse.takeWhile Char.isDigit = d.reverse := by
    rw [hrev, takeWhile_append_all _ hdsr, List.takeWhile_cons_of_neg (by decide)]
    simp
  have hrest : (a ++ '.' :: b ++ '?' :: d).reverse.dropWhile Char.isDigit =
      '?' :: (b.reverse ++ '.' :: a.reverse) := by
    rw [hrev, dropWhile_append_all _ hdsr, List.dropWhile_cons_of_neg (by decide)]
  have hbq' : ∀ c ∈ b.reverse, (!(c == '?')) = true := by
    intro c hc
    simpa using hbq c (List.mem_reverse.mp hc)
  obtain ⟨y, ys, hyb⟩ : ∃ y ys, b.reverse = y :: ys := by
    cases hcase : b.reverse with
    | nil => exact absurd (by simpa using congrArg List.reverse hcase) hb
    | cons y ys => exact ⟨y, ys, rfl⟩
  have happ : applyRule3 (a ++ '.' :: b ++ '?' :: d) = a ++ '.' :: b ++ ['?'] := by
    unfold applyRule3
    rw [hds, hrest]
    have hne1 : d.reverse.isEmpty = false := by
      cases d with
      | nil => exact absurd rfl hd
      | cons x xs => simp
    have htk : (('?' :: (b.reverse ++ '.' :: a.reverse)).drop 1).takeWhile
        (fun c => !(c == '?')) =
        b.reverse ++ '.' :: (a.reverse.takeWhile (fun c => !(c == '?'))) := by
      rw [List.drop_one, List.tail_cons, takeWhile_append_all _ hbq',
        List.takeWhile_cons_of_pos (by decide)]
    rw [htk, hne1, hyb]
    simp only [List.cons_append, List.drop_one, List.tail_cons]
    have hmem : '.' ∈ ys ++ '.' :: (a.reverse.takeWhile (fun c => !(c == '?'))) :=
      List.mem_append.mpr (Or.inr (List.mem_cons_self _ _))
    rw [if_pos]
    · have hbeq : b = ys.reverse ++ [y] := by simpa using congrArg List.reverse hyb
      rw [hbeq]
      simp
    · simp [List.contains, List.elem_iff.mpr hmem]
  have hne3 : applyRule3 (a ++ '.' :: b ++ '?' :: d) ≠ a ++ '.' :: b ++ '?' :: d := by
    rw [happ]
    intro hcontra
    have h' := List.append_cancel_left hcontra
    exact hd ((List.cons.inj h').2).symm
  unfold reduceL
  rw [if_neg (not_not_intro h1), if_neg (not_not_intro h2), if_pos hne3, happ]

/-- C4 witness: the amended statement evaluated on a.css?123. -/
theorem claim4_amended_witness :
    reduceL ("a".data ++ '.' :: "css".data ++ '?' :: "123".data) =
      "a".data ++ '.' :: "css".data ++ ['?'] :=
  claim4_amended "a".data "css".data "123".data (by decide) (by decide) (by decide)
    (by decide) (by decide) (by decide)

/-- C7: trivial passthroughs.  A null url is returned as null; any input
starting with a hash mark is returned unchanged; any input starting with
the original host string is returned unchanged, for every context. -/
theorem claim7_passthroughs :
    (∀ (ctx : Ctx) (r : Bool) (m : String) (d : Unit),
      urlRewriteFunction ctx none r m d = Except.ok none) ∧
    (∀ (ctx : Ctx) (s : String) (r : Bool) (m : String) (d : Unit),
      urlRewriteFunction ctx (some ("#" ++ s)) r m d = Except.ok (some ("#" ++ s))) ∧
    (∀ (ctx : Ctx) (s : String) (r : Bool) (m : String) (d : Unit),
      urlRewriteFunction ctx (some (ctx.orig_host ++ s)) r m d =
        Except.ok (some (ctx.orig_host ++ s))) := by
  refine ⟨fun ctx r m d => rfl, ?_, ?_⟩
  · intro ctx s r m d
    have hdata : ("#" ++ s).data = '#' :: s.data := by
      rw [String.data_append]
      rfl
    have hpass : passthroughCheck ctx ("#" ++ s).data = true := by
      have hany : specialSentinels.any (fun p => p.data.isPrefixOf ("#" ++ s).data) = true := by
        apply List.any_eq_true.mpr
        refine ⟨"#", by simp [specialSentinels], ?_⟩
        rw [hdata]
        simp [List.isPrefixOf]
      unfold passthroughCheck
      rw [hany, Bool.or_true]
    simp only [urlRewriteFunction]
    rw [hdata]
    simp only [List.isEmpty_cons, Bool.false_eq_true, if_false]
    rw [hdata] at hpass
    rw [if_pos hpass]
  · intro ctx s r m d
    simp only [urlRewriteFunction]
    by_cases he : (ctx.orig_host ++ s).data.isEmpty = true
    · rw [if_pos he]
    · rw [if_neg he, if_pos]
      have hpre : ctx.orig_host.data.isPrefixOf (ctx.orig_host ++ s).data = true := by
        rw [String.data_append]
        exact isPrefixOf_append_self _ _
      unfold passthroughCheck
      rw [hpre, Bool.true_or]

/-- A string that parses as a URL starts with a scheme. -/
theorem hasScheme_of_parse {s : List Char} {u : URLRec} (h : parseURL s = some u) :
    hasScheme s = true := by
  unfold parseURL at h
  unfold hasScheme
  cases hs : schemeSplit s with
  | none => rw [hs] at h; exact absurd h (by simp)
  | some pair => simp [hs]

/-- Resolving an already absolute URL ignores the base entirely. -/
theorem resolveToStringL_of_parse {s : List Char} {u : URLRec} (base : List Char)
    (h : parseURL s = some u) : resolveToStringL s base = some (serializeURL u) := by
  unfold resolveToStringL resolveURL
  rw [if_pos (hasScheme_of_parse h), h]
  rfl

/-- C8: absolute resolution by input shape.  Protocol-relative inputs get
the original scheme prefixed; host-relative inputs resolve against the
original page URL; all other inputs resolve against the current document
URL, and a fully qualified input is unaffected by the base. -/
theorem claim8_resolution_by_shape (ctx : Ctx) (u : List Char) :
    (("//".data).isPrefixOf u = true →
      resolveAbsolute ctx u = some (ctx.orig_scheme.data ++ u)) ∧
    (("//".data).isPrefixOf u = false → ("/".data).isPrefixOf u = true →
      resolveAbsolute ctx u = resolveToStringL u ctx.orig_url.data) ∧
    (("//".data).isPrefixOf u = false → ("/".data).isPrefixOf u = false →
      resolveAbsolute ctx u = resolveToStringL u ctx.current_url.data) ∧
    (∀ (base : List Char) (w : URLRec), parseURL u = some w →
      resolveToStringL u base = some (serializeURL w)) := by
  refine ⟨?_, ?_, ?_, ?_⟩
  · intro h
    unfold resolveAbsolute
    rw [if_pos h]
  · intro h1 h2
    unfold resolveAbsolute
    rw [if_neg (by simp [h1]), if_pos h2]
  · intro h1 h2
    unfold resolveAbsolute
    rw [if_neg (by simp [h1]), if_neg (by simp [h2])]
  · intro base w hw
    exact resolveToStringL_of_parse base hw

/-- C8 witness: each shape evaluated on a concrete input. -/
theorem claim8_resolution_by_shape_witness :
    resolveAbsolute ctxKiwix "//cdn.example.org/lib.js".data =
      some (ctxKiwix.orig_scheme.data ++ "//cdn.example.org/lib.js".data) ∧
    resolveAbsolute ctxKiwix "/icons/a.png".data =
      resolveToStringL "/icons/a.png".data ctxKiwix.orig_url.data ∧
    resolveAbsolute ctxKiwix "img/logo.png".data =
      resolveToStringL "img/logo.png".data ctxKiwix.current_url.data ∧
    resolveToStringL "https://host.example/z".data "http://other.example/q".data =
      some (serializeURL ⟨"https".data, "host.example".data, "/z".data, none, none⟩) :=
  ⟨(claim8_resolution_by_shape ctxKiwix _).1 (by decide),
   (claim8_resolution_by_shape ctxKiwix _).2.1 (by decide) (by decide),
   (claim8_resolution_by_shape ctxKiwix _).2.2.1 (by decide) (by decide),
   (claim8_resolution_by_shape ctxKiwix _).2.2.2 _ _ (by decide)⟩

/-- rewriteCore fails exactly when resolution fails or the reassembled
string does not parse. -/
theorem rewriteCore_error_iff (ctx : Ctx) (s : List Char) :
    rewriteCore ctx s = Except.error () ↔
    (resolveAbsolute ctx s = none ∨
     ∃ a, resolveAbsolute ctx s = some a ∧
       parseURL (ctx.servingRoot.data ++ reduceL (entryPathOf ctx a)) = none) := by
  unfold rewriteCore reassembleL
  cases hra : resolveAbsolute ctx s with
  | none => simp
  | some a =>
    cases hpu : parseURL (ctx.servingRoot.data ++ reduceL (entryPathOf ctx a)) with
    | none => simp [hpu]
    | some w => simp [hpu]

/-- C9: the rewrite function raises exactly when a non-passthrough,
nonempty input fails URL resolution or the reassembled serving string
fails to parse; it never swallows such a failure into a normal return. -/
theorem claim9_error_exactly_on_parse_failure (ctx : Ctx) (url : Option String)
    (r : Bool) (m : String) (d : Unit) :
    urlRewriteFunction ctx url r m d = Except.error () ↔
    ∃ s : String, url = some s ∧ s.data ≠ [] ∧ passthroughCheck ctx s.data = false ∧
      (resolveAbsolute ctx s.data = none ∨
       ∃ a, resolveAbsolute ctx s.data = some a ∧
         parseURL (ctx.servingRoot.data ++ reduceL (entryPathOf ctx a)) = none) := by
  cases url with
  | none => simp [urlRewriteFunction]
  | some s =>
    simp only [urlRewriteFunction]
    by_cases he : s.data.isEmpty = true
    · rw [if_pos he]
      constructor
      · intro h
        exact absurd h (by simp)
      · rintro ⟨s', hs', hne, -⟩
        injection hs' with hss
        exact absurd (List.isEmpty_iff.mp he) (hss ▸ hne)
    · rw [if_neg he]
      by_cases hp : passthroughCheck ctx s.data = true
      · rw [if_pos hp]
        constructor
        · intro h
          exact absurd h (by simp)
        · rintro ⟨s', hs', -, hpf, -⟩
          injection hs' with hss
          rw [← hss, hp] at hpf
          exact absurd hpf (by simp)
      · rw [if_neg hp]
        have hpf : passthroughCheck ctx s.data = false := by
          cases hcc : passthroughCheck ctx s.data
          · rfl
          · exact absurd hcc hp
        have hne : s.data ≠ [] := fun hnil => he (by simp [hnil])
        constructor
        · intro h
          refine ⟨s, rfl, hne, hpf, (rewriteCore_error_iff ctx s.data).mp ?_⟩
          cases hrc : rewriteCore ctx s.data with
          | error e => cases e; rfl
          | ok rr =>
            rw [hrc] at h
            simp at h
        · rintro ⟨s', hs', -, -, hcond⟩
          injection hs' with hss
          rw [← hss] at hcond
          rw [(rewriteCore_error_iff ctx s.data).mpr hcond]

/-- splitOn1 on a list free of the separator. -/
theorem splitOn1_no_occurrence (c : Char) (s : List Char)
    (h : ∀ x ∈ s, (x == c) = false) : splitOn1 c s = (s, none) := by
  unfold splitOn1
  have h' : ∀ x ∈ s, (!(x == c)) = true := fun x hx => by rw [h x hx]; rfl
  have ht : s.takeWhile (fun x => !(x == c)) = s := List.takeWhile_eq_self_iff.mpr h'
  have hdp : s.dropWhile (fun x => !(x == c)) = [] := List.dropWhile_eq_nil_iff.mpr h'
  rw [ht, hdp]

/-- splitOn1 around the first separator occurrence. -/
theorem splitOn1_first (c : Char) (a b : List Char)
    (h : ∀ x ∈ a, (x == c) = false) : splitOn1 c (a ++ c :: b) = (a, some b) := by
  unfold splitOn1
  have h' : ∀ x ∈ a, (!(x == c)) = true := fun x hx => by rw [h x hx]; rfl
  have ht : (a ++ c :: b).takeWhile (fun x => !(x == c)) = a := by
    rw [takeWhile_append_all _ h', List.takeWhile_cons_of_neg (by simp)]
    simp
  have hdp : (a ++ c :: b).dropWhile (fun x => !(x == c)) = c :: b := by
    rw [dropWhile_append_all _ h', List.dropWhile_cons_of_neg (by simp)]
  rw [ht, hdp]

/-- Inversion of a successful scheme split. -/
theorem schemeSplit_some_facts {s sch r : List Char}
    (h : schemeSplit s = some (sch, r)) :
    s = sch ++ ':' :: '/' :: '/' :: r ∧ sch ≠ [] ∧
    (∀ c ∈ sch, isSchemeChar c = true) ∧
    (∃ c cs, sch = c :: cs ∧ c.isAlpha = true) := by
  unfold schemeSplit at h
  by_cases hcond : (schemeOK (s.takeWhile isSchemeChar) &&
      ([':', '/', '/'] : List Char).isPrefixOf (s.dropWhile isSchemeChar)) = true
  · rw [if_pos hcond] at h
    injection h with h'
    have hsch : s.takeWhile isSchemeChar = sch := congrArg Prod.fst h'
    have hr : (s.dropWhile isSchemeChar).drop 3 = r := congrArg Prod.snd h'
    obtain ⟨hok, hpre⟩ := (Bool.and_eq_true _ _).mp hcond
    obtain ⟨t, ht⟩ := List.isPrefixOf_iff_prefix.mp hpre
    have hdw : s.dropWhile isSchemeChar = ':' :: '/' :: '/' :: r := by
      rw [← hr, ← ht]
      rfl
    obtain ⟨c, cs, hcs⟩ : ∃ c cs, sch = c :: cs ∧ c.isAlpha = true := by
      cases hschc : sch with
      | nil =>
        rw [hsch, hschc] at hok
        exact absurd hok (by simp [schemeOK])
      | cons c cs =>
        refine ⟨c, cs, rfl, ?_⟩
        rw [hsch, hschc] at hok
        simpa [schemeOK] using hok
    refine ⟨?_, by rw [hcs.1]; simp, ?_, c, cs, hcs⟩
    · conv_lhs => rw [← List.takeWhile_append_dropWhile isSchemeChar s]
      rw [hsch, hdw]
    · intro x hx
      exact List.mem_takeWhile_imp (hsch ▸ hx)
  · rw [if_neg hcond] at h
    exact absurd h (by simp)

/-- Building a scheme split from well-formed components. -/
theorem schemeSplit_build (sch r : List Char)
    (h2 : ∀ c ∈ sch, isSchemeChar c = true)
    (hhead : ∃ c cs, sch = c :: cs ∧ c.isAlpha = true) :
    schemeSplit (sch ++ ':' :: '/' :: '/' :: r) = some (sch, r) := by
  obtain ⟨c, cs, rfl, halpha⟩ := hhead
  unfold schemeSplit
  have ht : ((c :: cs) ++ ':' :: '/' :: '/' :: r).takeWhile isSchemeChar = c :: cs := by
    rw [takeWhile_append_all _ h2, List.takeWhile_cons_of_neg (by decide)]
    simp
  have hdp : ((c :: cs) ++ ':' :: '/' :: '/' :: r).dropWhile isSchemeChar =
      ':' :: '/' :: '/' :: r := by
    rw [dropWhile_append_all _ h2, List.dropWhile_cons_of_neg (by decide)]
  rw [ht, hdp]
  rw [if_pos]
  · rfl
  · simp [schemeOK, halpha, List.isPrefixOf]

/-- A string that parses as a URL starts with a letter. -/
theorem parseURL_head_alpha {s : List Char} {u : URLRec} (h : parseURL s = some u) :
    ∃ c t, s = c :: t ∧ c.isAlpha = true := by
  unfold parseURL at h
  cases hs : schemeSplit s with
  | none => rw [hs] at h; exact absurd h (by simp)
  | some pair =>
    obtain ⟨sch, r⟩ := pair
    obtain ⟨hseq, hsne, hsall, c, cs, hcs, halpha⟩ := schemeSplit_some_facts hs
    refine ⟨c, cs ++ ':' :: '/' :: '/' :: r, ?_, halpha⟩
    rw [hseq, hcs]
    rfl

/-- rewriteCore after a successful resolution step. -/
theorem rewriteCore_eq_of_resolve {ctx : Ctx} {s a : List Char}
    (h : resolveAbsolute ctx s = some a) :
    rewriteCore ctx s = reassembleL (ctx.servingRoot.data ++ reduceL (entryPathOf ctx a)) := by
  unfold rewriteCore
  rw [h]

/-- C5 amended: an entry path p that no fuzzy rule changes and whose
serving concatenation parses as a query-free URL that serializes back to
itself is a fixed point: rewriting servingRoot ++ p returns it
unchanged. -/
theorem claim5_amended (ctx : Ctx) (p : String) (w : URLRec)
    (hp : parseURL (ctx.servingRoot.data ++ p.data) = some w)
    (hs : serializeURL w = ctx.servingRoot.data ++ p.data)
    (hq : w.query = none)
    (hr : reduceL p.data = p.data)
    (r : Bool) (m : String) (d : Unit) :
    urlRewriteFunction ctx (some (ctx.servingRoot ++ p)) r m d =
      Except.ok (some (ctx.servingRoot ++ p)) := by
  have hdata : (ctx.servingRoot ++ p).data = ctx.servingRoot.data ++ p.data :=
    String.data_append _ _
  simp only [urlRewriteFunction]
  by_cases he : (ctx.servingRoot ++ p).data.isEmpty = true
  · rw [if_pos he]
  · rw [if_neg he]
    by_cases hpass : passthroughCheck ctx (ctx.servingRoot ++ p).data = true
    · rw [if_pos hpass]
    · rw [if_neg hpass]
      obtain ⟨c, t, hct, halpha⟩ := parseURL_head_alpha hp
      have hcnot : ('/' == c) = false := by
        apply beq_eq_false_iff_ne.mpr
        intro hc
        rw [← hc] at halpha
        exact absurd halpha (by decide)
      have h2 : ("//".data).isPrefixOf ((ctx.servingRoot ++ p).data) = false := by
        rw [hdata, hct]
        show (('/' == c) && ([('/' : Char)]).isPrefixOf t) = false
        rw [hcnot, Bool.false_and]
      have h1 : ("/".data).isPrefixOf ((ctx.servingRoot ++ p).data) = false := by
        rw [hdata, hct]
        show (('/' == c) && ([] : List Char).isPrefixOf t) = false
        rw [hcnot, Bool.false_and]
      have hres : resolveAbsolute ctx ((ctx.servingRoot ++ p).data) =
          some (ctx.servingRoot.data ++ p.data) := by
        unfold resolveAbsolute
        rw [if_neg (by rw [h2]; simp), if_neg (by rw [h1]; simp), hdata,
          resolveToStringL_of_parse _ hp, hs]
      have hentry : entryPathOf ctx (ctx.servingRoot.data ++ p.data) = p.data := by
        unfold entryPathOf
        rw [if_pos (isPrefixOf_append_self _ _)]
        exact List.drop_left _ _
      have hfold : foldQuery w = w := by
        unfold foldQuery
        have hsw : searchStr w = [] := by
          unfold searchStr
          rw [hq]
        rw [hsw]
        simp
      have hcore : rewriteCore ctx ((ctx.servingRoot ++ p).data) =
          Except.ok (ctx.servingRoot.data ++ p.data) := by
        rw [rewriteCore_eq_of_resolve hres, hentry, hr]
        unfold reassembleL
        rw [hp]
        show Except.ok (serializeURL (foldQuery w)) = _
        rw [hfold, hs]
      rw [hcore]
      show Except.ok (some (⟨ctx.servingRoot.data ++ p.data⟩ : String)) = _
      rw [← hdata]

/-- C5 witness: the amended statement evaluated on a concrete context
and a concrete query-free entry path. -/
theorem claim5_amended_witness :
    urlRewriteFunction ctxKiwix (some (ctxKiwix.servingRoot ++ "www.example.com/style.css"))
      true "" () =
    Except.ok (some (ctxKiwix.servingRoot ++ "www.example.com/style.css")) :=
  claim5_amended ctxKiwix "www.example.com/style.css"
    ⟨"http".data, "library.kiwix.org".data, "/A/www.example.com/style.css".data, none, none⟩
    (by decide) (by decide) rfl (by decide) true "" ()

/-- C5 counterexample: an entry path containing a query is not a fixed
point, because the query is folded into the path on re-rewriting, even
though no fuzzy rule changes the path. -/
theorem claim5_counterexample :
    reduceL "foo?x=1".data = "foo?x=1".data ∧
    urlRewriteFunction ctxKiwix (some ("http://library.kiwix.org/A/" ++ "foo?x=1"))
      true "" () ≠
    Except.ok (some ("http://library.kiwix.org/A/" ++ "foo?x=1")) := by
  refine ⟨by decide, by decide⟩

/-- headD of a drop is a member of the list or the default. -/
theorem headD_drop_mem_or (l : List Char) (n : Nat) (d : Char) :
    (l.drop n).headD d ∈ l ∨ (l.drop n).headD d = d := by
  cases hd : l.drop n with
  | nil => right; rfl
  | cons c t =>
    left
    have hc : c ∈ l.drop n := by
      rw [hd]
      exact List.mem_cons_self _ _
    exact (List.drop_sublist n l).subset hc

/-- Hexadecimal digits are neither ? nor #. -/
theorem hexDigitChar_safe (n : Nat) :
    (hexDigitChar n == '?') = false ∧ (hexDigitChar n == '#') = false := by
  have hall : ∀ x ∈ ("0123456789ABCDEF".data),
      (x == '?') = false ∧ (x == '#') = false := by decide
  unfold hexDigitChar
  rcases headD_drop_mem_or ("0123456789ABCDEF".data) n '0' with h | h
  · exact hall _ h
  · rw [h]
    exact ⟨by decide, by decide⟩

/-- Percent escapes contain neither ? nor #. -/
theorem percentEncodeChar_safe (c : Char) :
    ∀ x ∈ percentEncodeChar c, (x == '?') = false ∧ (x == '#') = false := by
  unfold percentEncodeChar
  generalize utf8Bytes c.toNat = bs
  induction bs with
  | nil => simp
  | cons b rest ih =>
    intro x hx
    simp only [List.foldr_cons, List.mem_cons] at hx
    rcases hx with rfl | rfl | rfl | hx
    · exact ⟨by decide, by decide⟩
    · exact hexDigitChar_safe _
    · exact hexDigitChar_safe _
    · exact ih x hx

/-- encodeURIComponent output contains neither ? nor #. -/
theorem encodeURIComponentL_safe (s : List Char) :
    ∀ x ∈ encodeURIComponentL s, (x == '?') = false ∧ (x == '#') = false := by
  induction s with
  | nil => simp [encodeURIComponentL]
  | cons c cs ih =>
    intro x hx
    have hrw : encodeURIComponentL (c :: cs) =
        (if isUnreservedChar c then [c] else percentEncodeChar c) ++
          encodeURIComponentL cs := rfl
    rw [hrw] at hx
    rcases List.mem_append.mp hx with h | h
    · by_cases hu : isUnreservedChar c = true
      · rw [if_pos hu] at h
        have hxc : x = c := by simpa using h
        subst hxc
        constructor
        · cases hbe : (x == '?') with
          | false => rfl
          | true =>
            rw [eq_of_beq hbe] at hu
            exact absurd hu (by decide)
        · cases hbe : (x == '#') with
          | false => rfl
          | true =>
            rw [eq_of_beq hbe] at hu
            exact absurd hu (by decide)
      · rw [if_neg hu] at h
        exact percentEncodeChar_safe c x h
    · exact ih x h

/-- The remainder returned by splitOn1 consists of members of the input. -/
theorem splitOn1_snd_mem {c : Char} {s rest : List Char}
    (h : (splitOn1 c s).2 = some rest) : ∀ x ∈ rest, x ∈ s := by
  unfold splitOn1 at h
  cases hd : s.dropWhile (fun x => !(x == c)) with
  | nil => rw [hd] at h; exact absurd h (by simp)
  | cons y t =>
    rw [hd] at h
    injection h with h'
    subst h'
    intro x hx
    have hsub := (List.dropWhile_sublist (fun x => !(x == c)) (l := s)).subset
    apply hsub
    rw [hd]
    exact List.mem_cons_of_mem y hx

/-- Well-formedness facts about the components of any parsed URL. -/
theorem parseURL_wf {s : List Char} {u : URLRec} (h : parseURL s = some u) :
    (∀ c ∈ u.scheme, isSchemeChar c = true) ∧
    (∃ c cs, u.scheme = c :: cs ∧ c.isAlpha = true) ∧
    u.host ≠ [] ∧ (∀ c ∈ u.host, isHostEnd c = false) ∧
    (∃ pt, u.pathname = '/' :: pt) ∧
    (∀ c ∈ u.pathname, (c == '?') = false ∧ (c == '#') = false) ∧
    (∀ q, u.query = some q → ∀ c ∈ q, (c == '#') = false) := by
  unfold parseURL at h
  cases hs : schemeSplit s with
  | none => rw [hs] at h; exact absurd h (by simp)
  | some pair =>
    obtain ⟨sch, r⟩ := pair
    rw [hs] at h
    dsimp only at h
    obtain ⟨hseq, hsne, hsall, hshead⟩ := schemeSplit_some_facts hs
    by_cases hh : ((r.takeWhile (fun c => !isHostEnd c)).isEmpty : Prop)
    · rw [if_pos hh] at h
      exact absurd h (by simp)
    · rw [if_neg hh] at h
      injection h with h'
      subst h'
      have hbf : (splitOn1 '#' (r.dropWhile (fun c => !isHostEnd c))).1 =
          (r.dropWhile (fun c => !isHostEnd c)).takeWhile (fun x => !(x == '#')) := rfl
      have hpathdef : (splitOn1 '?'
          (splitOn1 '#' (r.dropWhile (fun c => !isHostEnd c))).1).1 =
          ((r.dropWhile (fun c => !isHostEnd c)).takeWhile
            (fun x => !(x == '#'))).takeWhile (fun x => !(x == '?')) := rfl
      have hpmem : ∀ c ∈ (splitOn1 '?'
          (splitOn1 '#' (r.dropWhile (fun c => !isHostEnd c))).1).1,
          (c == '?') = false ∧ (c == '#') = false := by
        intro c hc
        rw [hpathdef] at hc
        constructor
        · have := List.mem_takeWhile_imp hc
          simpa using this
        · have hc2 : c ∈ (r.dropWhile (fun c => !isHostEnd c)).takeWhile
              (fun x => !(x == '#')) := (List.takeWhile_sublist _).subset hc
          have := List.mem_takeWhile_imp hc2
          simpa using this
      refine ⟨hsall, hshead, ?_, ?_, ?_, ?_, ?_⟩
      · intro hnil
        dsimp only at hnil
        rw [hnil] at hh
        exact hh rfl
      · intro c hc
        have := List.mem_takeWhile_imp hc
        simpa using this
      · by_cases hpe : ((splitOn1 '?'
            (splitOn1 '#' (r.dropWhile (fun c => !isHostEnd c))).1).1.isEmpty : Prop)
        · refine ⟨[], ?_⟩
          show (if _ then _ else _) = _
          rw [if_pos hpe]
        · cases hpath : (splitOn1 '?'
              (splitOn1 '#' (r.dropWhile (fun c => !isHostEnd c))).1).1 with
          | nil => exact absurd (by rw [hpath]; rfl) hpe
          | cons c0 t0 =>
            have hc0mem : c0 ∈ (splitOn1 '?'
                (splitOn1 '#' (r.dropWhile (fun c => !isHostEnd c))).1).1 := by
              rw [hpath]
              exact List.mem_cons_self _ _
            obtain ⟨hc0q, hc0f⟩ := hpmem c0 hc0mem
            rw [hpathdef] at hpath
            obtain ⟨hbfhead, -⟩ := takeWhile_eq_cons_head hpath
            obtain ⟨bt, hbt⟩ : ∃ bt, (r.dropWhile (fun c => !isHostEnd c)).takeWhile
                (fun x => !(x == '#')) = c0 :: bt := by
              cases hbf2 : (r.dropWhile (fun c => !isHostEnd c)).takeWhile
                  (fun x => !(x == '#')) with
              | nil => rw [hbf2] at hbfhead; exact absurd hbfhead (by simp)
              | cons y t =>
                rw [hbf2] at hbfhead
                simp only [List.head?_cons, Option.some.injEq] at hbfhead
                exact ⟨t, by rw [hbfhead]⟩
            obtain ⟨hr2head, -⟩ := takeWhile_eq_cons_head hbt
            obtain ⟨rt, hrt⟩ : ∃ rt, r.dropWhile (fun c => !isHostEnd c) = c0 :: rt := by
              cases hr2 : r.dropWhile (fun c => !isHostEnd c) with
              | nil => rw [hr2] at hr2head; exact absurd hr2head (by simp)
              | cons y t =>
                rw [hr2] at hr2head
                simp only [List.head?_cons, Option.some.injEq] at hr2head
                exact ⟨t, by rw [hr2head]⟩
            have hc0he := @dropWhile_eq_cons_head Char (fun c => !isHostEnd c) r rt c0 hrt
            have hc0host : isHostEnd c0 = true := by simpa using hc0he
            have hc0slash : c0 = '/' := by
              unfold isHostEnd at hc0host
              rw [hc0q, hc0f, Bool.or_false, Bool.or_false] at hc0host
              exact eq_of_beq hc0host
            refine ⟨t0, ?_⟩
            simp [hc0slash]
      · intro c hc
        by_cases hpe : ((splitOn1 '?'
            (splitOn1 '#' (r.dropWhile (fun c => !isHostEnd c))).1).1.isEmpty : Prop)
        · dsimp only at hc
          rw [if_pos hpe] at hc
          have : c = '/' := by simpa using hc
          rw [this]
          exact ⟨by decide, by decide⟩
        · dsimp only at hc
          rw [if_neg hpe] at hc
          exact hpmem c hc
      · intro q hq c hc
        have hcin : c ∈ (splitOn1 '#' (r.dropWhile (fun c => !isHostEnd c))).1 :=
          splitOn1_snd_mem hq c hc
        rw [hbf] at hcin
        have := List.mem_takeWhile_imp hcin
        simpa using this

/-- Serialization followed by parsing restores a well-formed URL record. -/
theorem parse_serialize {u : URLRec}
    (hsall : ∀ c ∈ u.scheme, isSchemeChar c = true)
    (hshead : ∃ c cs, u.scheme = c :: cs ∧ c.isAlpha = true)
    (hhne : u.host ≠ []) (hhall : ∀ c ∈ u.host, isHostEnd c = false)
    (hpath : ∃ pt, u.pathname = '/' :: pt)
    (hpall : ∀ c ∈ u.pathname, (c == '?') = false ∧ (c == '#') = false)
    (hqall : ∀ q, u.query = some q → ∀ c ∈ q, (c == '#') = false) :
    parseURL (serializeURL u) = some u := by
  obtain ⟨sch, host, pathname, query, frag⟩ := u
  dsimp only at hsall hshead hhne hhall hpath hpall hqall
  obtain ⟨pt, hpt⟩ := hpath
  subst hpt
  have hhall' : ∀ c ∈ host, (!isHostEnd c) = true := fun c hc => by rw [hhall c hc]; rfl
  have hhe : host.isEmpty = false := by
    cases host with
    | nil => exact absurd rfl hhne
    | cons x xs => rfl
  have hhost : ∀ T : List Char, (host ++ '/' :: T).takeWhile (fun c => !isHostEnd c) = host := by
    intro T
    rw [takeWhile_append_all _ hhall', List.takeWhile_cons_of_neg (by decide)]
    simp
  have hrest : ∀ T : List Char,
      (host ++ '/' :: T).dropWhile (fun c => !isHostEnd c) = '/' :: T := by
    intro T
    rw [dropWhile_append_all _ hhall', List.dropWhile_cons_of_neg (by decide)]
  have hpnf : ∀ c ∈ ('/' :: pt), (c == '#') = false := fun c hc => (hpall c hc).2
  have hpnq : ∀ c ∈ ('/' :: pt), (c == '?') = false := fun c hc => (hpall c hc).1
  cases query with
  | none =>
    cases frag with
    | none =>
      have h1 : serializeURL ⟨sch, host, '/' :: pt, none, none⟩ =
          sch ++ ':' :: '/' :: '/' :: (host ++ '/' :: pt) := by
        simp [serializeURL]
      rw [h1]
      unfold parseURL
      rw [schemeSplit_build _ _ hsall hshead]
      dsimp only
      rw [hhost, hrest, splitOn1_no_occurrence '#' _ hpnf]
      dsimp only
      rw [splitOn1_no_occurrence '?' _ hpnq]
      rw [if_neg (by rw [hhe]; simp)]
      dsimp only
      rw [if_neg (by simp)]
    | some f =>
      have h1 : serializeURL ⟨sch, host, '/' :: pt, none, some f⟩ =
          sch ++ ':' :: '/' :: '/' :: (host ++ '/' :: (pt ++ '#' :: f)) := by
        simp [serializeURL]
      rw [h1]
      unfold parseURL
      rw [schemeSplit_build _ _ hsall hshead]
      dsimp only
      rw [hhost, hrest]
      have hshape : ('/' :: (pt ++ '#' :: f)) = ('/' :: pt) ++ '#' :: f := by simp
      rw [hshape, splitOn1_first '#' _ _ hpnf]
      dsimp only
      rw [splitOn1_no_occurrence '?' _ hpnq]
      rw [if_neg (by rw [hhe]; simp)]
      dsimp only
      rw [if_neg (by simp)]
  | some q =>
    have hqf : ∀ c ∈ q, (c == '#') = false := hqall q rfl
    cases frag with
    | none =>
      have h1 : serializeURL ⟨sch, host, '/' :: pt, some q, none⟩ =
          sch ++ ':' :: '/' :: '/' :: (host ++ '/' :: (pt ++ '?' :: q)) := by
        simp [serializeURL]
      rw [h1]
      unfold parseURL
      rw [schemeSplit_build _ _ hsall hshead]
      dsimp only
      rw [hhost, hrest]
      have hnf2 : ∀ c ∈ ('/' :: (pt ++ '?' :: q)), (c == '#') = false := by
        intro c hc
        rcases List.mem_cons.mp hc with rfl | hc2
        · decide
        · rcases List.mem_append.mp hc2 with hc3 | hc3
          · exact hpnf c (List.mem_cons_of_mem _ hc3)
          · rcases List.mem_cons.mp hc3 with rfl | hc4
            · decide
            · exact hqf c hc4
      rw [splitOn1_no_occurrence '#' _ hnf2]
      dsimp only
      have hshape : ('/' :: (pt ++ '?' :: q)) = ('/' :: pt) ++ '?' :: q := by simp
      rw [hshape, splitOn1_first '?' _ _ hpnq]
      rw [if_neg (by rw [hhe]; simp)]
      dsimp only
      rw [if_neg (by simp)]
    | some f =>
      have h1 : serializeURL ⟨sch, host, '/' :: pt, some q, some f⟩ =
          sch ++ ':' :: '/' :: '/' :: (host ++ '/' :: (pt ++ '?' :: (q ++ '#' :: f))) := by
        simp [serializeURL]
      rw [h1]
      unfold parseURL
      rw [schemeSplit_build _ _ hsall hshead]
      dsimp only
      rw [hhost, hrest]
      have hshape : ('/' :: (pt ++ '?' :: (q ++ '#' :: f))) =
          (('/' :: pt) ++ '?' :: q) ++ '#' :: f := by simp
      have hnf3 : ∀ c ∈ (('/' :: pt) ++ '?' :: q), (c == '#') = false := by
        intro c hc
        rcases List.mem_append.mp hc with hc2 | hc2
        · exact hpnf c hc2
        · rcases List.mem_cons.mp hc2 with rfl | hc3
          · decide
          · exact hqf c hc3
      rw [hshape, splitOn1_first '#' _ _ hnf3]
      dsimp only
      rw [splitOn1_first '?' _ _ hpnq]
      rw [if_neg (by rw [hhe]; simp)]
      dsimp only
      rw [if_neg (by simp)]

/-- C6: query folding.  Whenever the reassembled serving string carries a
nonempty query, the returned URL has its query folded away: reassembly
yields the serialization of the folded record, whose pathname is the old
pathname extended by the percent-encoding of the whole query including
its leading question mark, whose query component is empty, and which
re-parses to exactly that record (so the output has an empty query and a
path ending in the encoded query). -/
theorem claim6_query_folding (pre rp : List Char) (u : URLRec) (q : List Char)
    (hp : parseURL (pre ++ rp) = some u) (hq : u.query = some q) (hne : q ≠ []) :
    reassembleL (pre ++ rp) = Except.ok (serializeURL (foldQuery u)) ∧
    foldQuery u = { u with
      pathname := u.pathname ++ encodeURIComponentL ('?' :: q)
      query := none } ∧
    parseURL (serializeURL (foldQuery u)) = some (foldQuery u) ∧
    encodeURIComponentL ('?' :: q) <:+ (foldQuery u).pathname := by
  have hqe : q.isEmpty = false := by
    cases q with
    | nil => exact absurd rfl hne
    | cons x xs => rfl
  have hsearch : searchStr u = '?' :: q := by
    unfold searchStr
    rw [hq]
    dsimp only
    rw [if_neg (by rw [hqe]; simp)]
  have hfold : foldQuery u =
      { u with
        pathname := u.pathname ++ encodeURIComponentL ('?' :: q)
        query := none } := by
    unfold foldQuery
    rw [hsearch]
    rw [if_pos (by simp)]
  obtain ⟨hsall, hshead, hhne, hhall, hpath, hpall, hqall⟩ := parseURL_wf hp
  have hfold_wf : parseURL (serializeURL (foldQuery u)) = some (foldQuery u) := by
    rw [hfold]
    apply parse_serialize
    · exact hsall
    · exact hshead
    · exact hhne
    · exact hhall
    · obtain ⟨pt, hpt⟩ := hpath
      refine ⟨pt ++ encodeURIComponentL ('?' :: q), ?_⟩
      dsimp only
      rw [hpt]
      rfl
    · intro c hc
      dsimp only at hc
      rcases List.mem_append.mp hc with h | h
      · exact hpall c h
      · exact encodeURIComponentL_safe _ c h
    · intro q' hq'
      dsimp only at hq'
      exact absurd hq' (by simp)
  refine ⟨?_, hfold, hfold_wf, ?_⟩
  · unfold reassembleL
    rw [hp]
  · rw [hfold]
    dsimp only
    exact List.suffix_append _ _

/-- C6 witness: the folding statement evaluated at a concrete serving
string with query a=1&b=2. -/
theorem claim6_query_folding_witness :
    reassembleL ("http://h/A/".data ++ "f?a=1&b=2".data) =
      Except.ok (serializeURL (foldQuery
        ⟨"http".data, "h".data, "/A/f".data, some "a=1&b=2".data, none⟩)) :=
  (claim6_query_folding "http://h/A/".data "f?a=1&b=2".data
    ⟨"http".data, "h".data, "/A/f".data, some "a=1&b=2".data, none⟩ "a=1&b=2".data
    (by decide) rfl (by decide)).1
